import Mathlib

/-!
# Verification of the `indexed_map` crate (`src/lib.rs`)

Shallow embedding of the Rust library: a keyed in-memory container
(`IndexedMap`) with incrementally maintained secondary indices.

Modelling choices:
* `HashMap` is modelled as an association list (`Table`) whose `insert`
  replaces the value at an existing key in place and appends fresh keys;
  `lookup` returns the first binding.  Equality of Rust `HashMap`s is
  membership-based, so claims about "the same map" are stated through
  `Table.lookup` / list membership.
* `HashSet` is modelled as a list (`KeySet`) with membership-checked
  insertion.
* The type-erased registry `HashMap<String, HashMap<TypeId, Box<dyn
  IndexUpdater>>>` is modelled with a type `TC` of type codes (standing for
  `TypeId`) and an interpretation `El : TC → Type` (the concrete secondary
  key type denoted by a code).  The inner map is a list of dependent pairs
  `(t : TC) × IndexState K V (El t)`; the checked downcast of
  `get_index_state` is the cast performed by the dependent lookup, which
  always succeeds when the stored code matches — exactly the situation in
  the Rust code, where `add_index` stores `IndexState<K,V,A>` under
  `TypeId::of::<A>()`.
* `IndexId<A>` (the capability token) carries the index name; the phantom
  type parameter `A` is represented by the type-code parameter `t`.
-/

/-- Association-list model of `std::collections::HashMap`. -/
abbrev Table (α β : Type) : Type := List (α × β)

/-- List model of `std::collections::HashSet`. -/
abbrev KeySet (α : Type) : Type := List α

namespace Table

/-- `HashMap::new()`. -/
def empty {α β : Type} : Table α β := []

/-- `HashMap::get`: first binding for the key. -/
def lookup {α β : Type} [DecidableEq α] : Table α β → α → Option β
  | [], _ => none
  | (k, v) :: rest, a => if a = k then some v else lookup rest a

/-- `HashMap::insert`: replace the value at an existing key (the stored key
is kept, as in Rust), append a fresh key. -/
def insert {α β : Type} [DecidableEq α] : Table α β → α → β → Table α β
  | [], a, b => [(a, b)]
  | (k, v) :: rest, a, b =>
      if a = k then (k, b) :: rest else (k, v) :: insert rest a b

/-- The keys of the map, in storage order. -/
def keys {α β : Type} (l : Table α β) : List α := l.map Prod.fst

end Table

namespace KeySet

/-- `HashSet::new()`. -/
def empty {α : Type} : KeySet α := []

/-- `HashSet::insert`: add the element if it is not already present. -/
def insert {α : Type} [DecidableEq α] (s : KeySet α) (a : α) : KeySet α :=
  if a ∈ s then s else a :: s

end KeySet

/-- `IndexState<K, V, A>`: one secondary index.  `index` is the forward map
(secondary key → set of primary keys), `indexed` the reverse map (primary
key → set of secondary keys), `index_fn` the derivation function. -/
structure IndexState (K V A : Type) : Type where
  index_fn : K → V → List A
  index : Table A (KeySet K)
  indexed : Table K (KeySet A)

namespace IndexState

/-- `IndexState::empty`. -/
def empty {K V A : Type} (index_fn : K → V → List A) : IndexState K V A :=
  ⟨index_fn, Table.empty, Table.empty⟩

/-- One step of the iteration inside `IndexState::insert`: given the pair of
the forward map and the `indexed_values` accumulator, process one secondary
key `a`: `self.index.entry(a).or_insert(HashSet::new()).insert(key)` and
`indexed_values.insert(a)`. -/
def insertStep {K A : Type} [DecidableEq K] [DecidableEq A] (key : K)
    (acc : Table A (KeySet K) × KeySet A) (a : A) :
    Table A (KeySet K) × KeySet A :=
  (Table.insert acc.1 a
      (KeySet.insert ((Table.lookup acc.1 a).getD KeySet.empty) key),
   KeySet.insert acc.2 a)

/-- `IndexState::insert(&mut self, key, value)`: fold `insertStep` over
`index_fn(key, value)`, then `self.indexed.insert(key, indexed_values)`. -/
def insert {K V A : Type} [DecidableEq K] [DecidableEq A]
    (s : IndexState K V A) (key : K) (value : V) : IndexState K V A :=
  let r := (s.index_fn key value).foldl (insertStep key) (s.index, KeySet.empty)
  { s with index := r.1, indexed := Table.insert s.indexed key r.2 }

end IndexState

/-- The inner registry map `HashMap<TypeId, Box<dyn IndexUpdater<K, V>>>`:
a list of dependent pairs, each holding a type code (a `TypeId`) together
with the index state for the secondary key type that code denotes. -/
abbrev TypeTable (K V : Type) (TC : Type) (El : TC → Type) : Type :=
  List ((t : TC) × IndexState K V (El t))

namespace TypeTable

/-- `HashMap::with_capacity(1)`: the fresh (empty) inner registry map. -/
def empty {K V TC : Type} {El : TC → Type} : TypeTable K V TC El := []

/-- Lookup plus checked downcast: find the state stored under code `t`; the
cast along the code equality is the always-successful `downcast_ref`. -/
def lookup {K V TC : Type} {El : TC → Type} [DecidableEq TC] :
    TypeTable K V TC El → (t : TC) → Option (IndexState K V (El t))
  | [], _ => none
  | ⟨t', s⟩ :: rest, t => if h : t' = t then some (h ▸ s) else lookup rest t

/-- `HashMap::insert` on the inner registry map. -/
def insert {K V TC : Type} {El : TC → Type} [DecidableEq TC] :
    TypeTable K V TC El → (t : TC) → IndexState K V (El t) →
      TypeTable K V TC El
  | [], t, s => [⟨t, s⟩]
  | ⟨t', s'⟩ :: rest, t, s =>
      if t' = t then ⟨t, s⟩ :: rest else ⟨t', s'⟩ :: insert rest t s

/-- The stored type codes, in storage order. -/
def codes {K V TC : Type} {El : TC → Type} (reg : TypeTable K V TC El) :
    List TC := reg.map Sigma.fst

end TypeTable

/-- `IndexedMap<K, V>`: the primary store plus the registry of secondary
indices, keyed by name and then by type code. -/
structure IndexedMap (K V : Type) (TC : Type) (El : TC → Type) : Type where
  inner : Table K V
  indices : Table String (TypeTable K V TC El)

/-- `IndexId<A>`: the capability token; carries the index name, while the
secondary-key type is the type-level parameter `t`. -/
structure IndexId (TC : Type) (t : TC) : Type where
  name : String

namespace IndexedMap

variable {K V TC : Type} {El : TC → Type}
variable [DecidableEq K] [DecidableEq TC] [∀ t, DecidableEq (El t)]

/-- `IndexedMap::new()`. -/
def new : IndexedMap K V TC El := ⟨Table.empty, Table.empty⟩

/-- `IndexedMap::insert`: propagate `(key, value)` to every registered index
state, then insert into the primary store; returns the previous value. -/
def insert (m : IndexedMap K V TC El) (key : K) (value : V) :
    IndexedMap K V TC El × Option V :=
  ({ inner := Table.insert m.inner key value,
     indices := m.indices.map fun p =>
       (p.1, p.2.map fun e => ⟨e.1, IndexState.insert e.2 key value⟩) },
   Table.lookup m.inner key)

/-- The backfill loop of `add_index`: apply `IndexState::insert` to every
entry currently in the primary store. -/
def backfill {A : Type} [DecidableEq A] (entries : Table K V)
    (index_fn : K → V → List A) : IndexState K V A :=
  entries.foldl (fun s kv => IndexState.insert s kv.1 kv.2)
    (IndexState.empty index_fn)

/-- `IndexedMap::add_index`: build a fresh state, backfill it from the
primary store, store it under `(name, TypeId::of::<A>())` (replacing any
state at that pair, via `entry(name).or_insert(HashMap::new()).insert`),
and return the capability token. -/
def add_index (m : IndexedMap K V TC El) (name : String) (t : TC)
    (index_fn : K → V → List (El t)) :
    IndexedMap K V TC El × IndexId TC t :=
  let index_state := backfill m.inner index_fn
  let prev := (Table.lookup m.indices name).getD TypeTable.empty
  ({ m with
     indices := Table.insert m.indices name
       (TypeTable.insert prev t index_state) },
   ⟨name⟩)

/-- `IndexedMap::get_index_state`: resolve name, then type code, with the
checked downcast folded into the dependent lookup. -/
def get_index_state (m : IndexedMap K V TC El) {t : TC}
    (index_id : IndexId TC t) : Option (IndexState K V (El t)) :=
  (Table.lookup m.indices index_id.name).bind fun x => TypeTable.lookup x t

/-- `IndexedMap::get_index`: the forward map of the resolved state. -/
def get_index (m : IndexedMap K V TC El) {t : TC} (index_id : IndexId TC t) :
    Option (Table (El t) (KeySet K)) :=
  (m.get_index_state index_id).map fun x => x.index

/-- `IndexedMap::filter_by_index`: resolve the forward bucket for
`index_key`, then resolve each primary key against the primary store,
collecting the found pairs into a map. -/
def filter_by_index (m : IndexedMap K V TC El) {t : TC}
    (index_id : IndexId TC t) (index_key : El t) : Option (Table K V) :=
  ((m.get_index index_id).bind fun x => Table.lookup x index_key).map
    fun keys =>
      keys.foldl
        (fun acc k =>
          match Table.lookup m.inner k with
          | some v => Table.insert acc k v
          | none => acc)
        Table.empty

/-- `IndexedMap::keys_by_index`: the raw forward bucket. -/
def keys_by_index (m : IndexedMap K V TC El) {t : TC}
    (index_id : IndexId TC t) (index_key : El t) : Option (KeySet K) :=
  (m.get_index index_id).bind fun x => Table.lookup x index_key

end IndexedMap

namespace IndexState

/-- The backfill loop of `add_index` as a function of the start state:
insert a list of entries one after the other. -/
def insertAll {K V A : Type} [DecidableEq K] [DecidableEq A]
    (s : IndexState K V A) (entries : List (K × V)) : IndexState K V A :=
  entries.foldl (fun s kv => IndexState.insert s kv.1 kv.2) s

end IndexState

namespace IndexedMap

variable {K V TC : Type} {El : TC → Type}
variable [DecidableEq K] [DecidableEq TC] [∀ t, DecidableEq (El t)]

/-- A sequence of container-level inserts. -/
def insertAll (m : IndexedMap K V TC El) (entries : List (K × V)) :
    IndexedMap K V TC El :=
  entries.foldl (fun m kv => (m.insert kv.1 kv.2).1) m

end IndexedMap

/-- The containers reachable from `IndexedMap::new()` by the mutating
operations `insert` and `add_index` (the queries are pure and do not change
the container). -/
inductive Reachable {K V TC : Type} {El : TC → Type} [DecidableEq K]
    [DecidableEq TC] [∀ t, DecidableEq (El t)] :
    IndexedMap K V TC El → Prop where
  | new : Reachable IndexedMap.new
  | insert (m : IndexedMap K V TC El) (key : K) (value : V) :
      Reachable m → Reachable (m.insert key value).1
  | add_index (m : IndexedMap K V TC El) (name : String) (t : TC)
      (index_fn : K → V → List (El t)) :
      Reachable m → Reachable (m.add_index name t index_fn).1

/-- Containers reachable when no primary key is ever inserted twice: every
`insert` requires the key to be absent from the primary store. -/
inductive ReachableNoOverwrite {K V TC : Type} {El : TC → Type}
    [DecidableEq K] [DecidableEq TC] [∀ t, DecidableEq (El t)] :
    IndexedMap K V TC El → Prop where
  | new : ReachableNoOverwrite IndexedMap.new
  | insert (m : IndexedMap K V TC El) (key : K) (value : V) :
      ReachableNoOverwrite m → Table.lookup m.inner key = none →
      ReachableNoOverwrite (m.insert key value).1
  | add_index (m : IndexedMap K V TC El) (name : String) (t : TC)
      (index_fn : K → V → List (El t)) :
      ReachableNoOverwrite m →
      ReachableNoOverwrite (m.add_index name t index_fn).1

/-! ## Concrete instances used to evaluate the theorems

A two-code universe of secondary-key types, standing for the two `TypeId`s
exercised by the library's own test (`usize` alias `Nat`, and `String`). -/

def ElB : Bool → Type
  | true => Nat
  | false => String

instance : (t : Bool) → DecidableEq (ElB t)
  | true => inferInstanceAs (DecidableEq Nat)
  | false => inferInstanceAs (DecidableEq String)

def exM0 : IndexedMap Nat Nat Bool ElB := IndexedMap.new

def exM1 : IndexedMap Nat Nat Bool ElB := (exM0.insert 1 10).1

def exAdd : IndexedMap Nat Nat Bool ElB × IndexId Bool true :=
  exM1.add_index "len" true (fun _ v => [v, v + 1])

def exM : IndexedMap Nat Nat Bool ElB := (exAdd.1.insert 2 10).1

def exTok : IndexId Bool true := exAdd.2

def exSt : IndexState Nat Nat Nat :=
  (exM.get_index_state exTok).getD (IndexState.empty fun _ _ => [])

def exSt0 : IndexState Nat Nat Nat :=
  IndexState.insert (IndexState.empty fun _ v => [v]) 1 10

def exDupFn : Nat → Nat → List Nat := fun _ v => [v, v]

def c8m1 : IndexedMap Nat Nat Bool ElB := (exM0.insert 1 4).1

def c8r1 : IndexedMap Nat Nat Bool ElB × IndexId Bool true :=
  c8m1.add_index "i" true (fun _ v => [v])

def c8r2 : IndexedMap Nat Nat Bool ElB × IndexId Bool false :=
  c8r1.1.add_index "i" false (fun _ _ => ["x"])

/-! ## Lemmas about the `HashMap` model -/

namespace Table

variable {α β γ : Type} [DecidableEq α]

@[simp] theorem lookup_nil (a : α) : lookup ([] : Table α β) a = none := rfl

@[simp] theorem lookup_cons (k : α) (v : β) (rest : Table α β) (a : α) :
    lookup ((k, v) :: rest) a = if a = k then some v else lookup rest a := rfl

omit [DecidableEq α] in
@[simp] theorem keys_nil : keys ([] : Table α β) = [] := rfl

omit [DecidableEq α] in
@[simp] theorem keys_cons (k : α) (v : β) (rest : Table α β) :
    keys ((k, v) :: rest) = k :: keys rest := rfl

@[simp] theorem insert_nil (a : α) (b : β) :
    insert ([] : Table α β) a b = [(a, b)] := rfl

theorem insert_cons (k : α) (v : β) (rest : Table α β) (a : α) (b : β) :
    insert ((k, v) :: rest) a b =
      if a = k then (k, b) :: rest else (k, v) :: insert rest a b := rfl

theorem lookup_insert (l : Table α β) (a a' : α) (b : β) :
    lookup (insert l a b) a' = if a' = a then some b else lookup l a' := by
  induction l with
  | nil =>
    by_cases h : a' = a <;> simp [h]
  | cons p rest ih =>
    obtain ⟨k, v⟩ := p
    rw [insert_cons]
    by_cases hak : a = k
    · subst hak
      by_cases h' : a' = a <;> simp [h']
    · by_cases h' : a' = k
      · subst h'
        have hne : a' ≠ a := fun h => hak h.symm
        simp [hne]
        rw [if_neg hak]
        simp
      · simp [hak, h', ih]

theorem lookup_insert_self (l : Table α β) (a : α) (b : β) :
    lookup (insert l a b) a = some b := by
  simp [lookup_insert]

theorem lookup_insert_ne (l : Table α β) {a a' : α} (b : β) (h : a' ≠ a) :
    lookup (insert l a b) a' = lookup l a' := by
  simp [lookup_insert, h]

theorem lookup_isSome_iff_mem_keys (l : Table α β) (a : α) :
    (lookup l a).isSome ↔ a ∈ keys l := by
  induction l with
  | nil => simp
  | cons p rest ih =>
    obtain ⟨k, v⟩ := p
    by_cases h : a = k <;> simp [h, ih]

theorem keys_insert (l : Table α β) (a : α) (b : β) :
    keys (insert l a b) = if a ∈ keys l then keys l else keys l ++ [a] := by
  induction l with
  | nil => simp
  | cons p rest ih =>
    obtain ⟨k, v⟩ := p
    rw [insert_cons]
    by_cases h : a = k
    · subst h
      simp
    · rw [if_neg h, keys_cons, keys_cons, ih]
      by_cases hm : a ∈ keys rest <;>
        simp [hm, List.mem_cons, h]

theorem keys_nodup_insert (l : Table α β) (a : α) (b : β)
    (h : (keys l).Nodup) : (keys (insert l a b)).Nodup := by
  rw [keys_insert]
  by_cases hm : a ∈ keys l <;> simp [hm, h, List.nodup_append]

theorem lookup_map_snd (f : β → γ) (l : Table α β) (a : α) :
    lookup (l.map fun p => (p.1, f p.2)) a = (lookup l a).map f := by
  induction l with
  | nil => simp
  | cons p rest ih =>
    obtain ⟨k, v⟩ := p
    by_cases h : a = k <;> simp [h, ih]

theorem mem_of_lookup_eq_some {l : Table α β} {a : α} {b : β}
    (h : lookup l a = some b) : (a, b) ∈ l := by
  induction l with
  | nil => simp at h
  | cons p rest ih =>
    obtain ⟨k, v⟩ := p
    by_cases hk : a = k
    · subst hk
      simp at h
      simp [h]
    · simp [hk] at h
      simp [ih h]

theorem lookup_eq_some_of_mem_nodup {l : Table α β} {a : α} {b : β}
    (hnd : (keys l).Nodup) (h : (a, b) ∈ l) : lookup l a = some b := by
  induction l with
  | nil => simp at h
  | cons p rest ih =>
    obtain ⟨k, v⟩ := p
    rw [keys_cons, List.nodup_cons] at hnd
    rcases List.mem_cons.mp h with heq | hmem
    · rw [Prod.mk.injEq] at heq
      obtain ⟨rfl, rfl⟩ := heq
      simp
    · have hak : a ≠ k := by
        rintro rfl
        exact hnd.1 (List.mem_map_of_mem Prod.fst hmem)
      rw [lookup_cons, if_neg hak]
      exact ih hnd.2 hmem

theorem insert_of_not_mem_keys {l : Table α β} {a : α} (b : β)
    (h : a ∉ keys l) : insert l a b = l ++ [(a, b)] := by
  induction l with
  | nil => simp
  | cons p rest ih =>
    obtain ⟨k, v⟩ := p
    rw [keys_cons, List.mem_cons] at h
    push_neg at h
    rw [insert_cons, if_neg h.1, ih h.2]
    simp

theorem foldl_insert_append {l : Table α β} (acc : Table α β)
    (hnd : (keys l).Nodup) (hdis : ∀ k ∈ keys l, k ∉ keys acc) :
    l.foldl (fun acc kv => insert acc kv.1 kv.2) acc = acc ++ l := by
  induction l generalizing acc with
  | nil => simp
  | cons p rest ih =>
    obtain ⟨k, v⟩ := p
    rw [keys_cons, List.nodup_cons] at hnd
    have hk : k ∉ keys acc := hdis k (by simp)
    have h1 : insert acc k v = acc ++ [(k, v)] := insert_of_not_mem_keys v hk
    have h2 : ∀ k' ∈ keys rest, k' ∉ keys (acc ++ [(k, v)]) := by
      intro k' hk' hx
      have hkeys : keys (acc ++ [(k, v)]) = keys acc ++ [k] := by
        simp [keys]
      rw [hkeys, List.mem_append] at hx
      rcases hx with hx | hx
      · exact hdis k' (by simp [hk']) hx
      · simp at hx
        exact hnd.1 (hx ▸ hk')
    calc rest.foldl (fun acc kv => insert acc kv.1 kv.2) (insert acc k v)
        = rest.foldl (fun acc kv => insert acc kv.1 kv.2) (acc ++ [(k, v)]) := by
          rw [h1]
      _ = (acc ++ [(k, v)]) ++ rest := ih (acc ++ [(k, v)]) hnd.2 h2
      _ = acc ++ (k, v) :: rest := by simp

theorem foldl_insert_eq_self {l : Table α β} (hnd : (keys l).Nodup) :
    l.foldl (fun acc kv => insert acc kv.1 kv.2) Table.empty = l := by
  have := foldl_insert_append (l := l) Table.empty hnd
    (by intro k _; simp [Table.empty, keys])
  simpa [Table.empty] using this

end Table

namespace KeySet

variable {α : Type} [DecidableEq α]

theorem mem_insert (s : KeySet α) (a x : α) :
    x ∈ insert s a ↔ x = a ∨ x ∈ s := by
  by_cases h : a ∈ s
  · simp only [insert, if_pos h]
    constructor
    · exact Or.inr
    · rintro (rfl | hx)
      · exact h
      · exact hx
  · simp [insert, h]

theorem mem_insert_self (s : KeySet α) (a : α) : a ∈ insert s a := by
  simp [mem_insert]

theorem mem_insert_of_mem (s : KeySet α) (a : α) {x : α} (h : x ∈ s) :
    x ∈ insert s a := by
  simp [mem_insert, h]

theorem insert_ne_nil (s : KeySet α) (a : α) : insert s a ≠ [] := by
  by_cases h : a ∈ s
  · simp only [insert, if_pos h]
    rintro rfl
    simp at h
  · simp [insert, h]

theorem nodup_insert (s : KeySet α) (a : α) (h : s.Nodup) :
    (insert s a).Nodup := by
  by_cases hm : a ∈ s <;> simp [insert, hm, h]

end KeySet

/-! ## Lemmas about `IndexState::insert` -/

namespace IndexState

variable {K V A : Type} [DecidableEq K] [DecidableEq A]

theorem foldl_insertStep_snd (key : K) (as : List A)
    (idx : Table A (KeySet K)) (s0 : KeySet A) (x : A) :
    x ∈ (as.foldl (insertStep key) (idx, s0)).2 ↔ x ∈ s0 ∨ x ∈ as := by
  induction as generalizing idx s0 with
  | nil => simp
  | cons a rest ih =>
    rw [List.foldl_cons]
    rw [show insertStep key (idx, s0) a =
      (Table.insert idx a
        (KeySet.insert ((Table.lookup idx a).getD KeySet.empty) key),
       KeySet.insert s0 a) from rfl]
    rw [ih]
    rw [KeySet.mem_insert]
    constructor
    · rintro ((rfl | hx) | hx)
      · exact Or.inr (by simp)
      · exact Or.inl hx
      · exact Or.inr (by simp [hx])
    · rintro (hx | hx)
      · exact Or.inl (Or.inr hx)
      · rcases List.mem_cons.mp hx with rfl | hx
        · exact Or.inl (Or.inl rfl)
        · exact Or.inr hx

theorem foldl_insertStep_snd_nodup (key : K) (as : List A)
    (idx : Table A (KeySet K)) (s0 : KeySet A) (h : s0.Nodup) :
    (as.foldl (insertStep key) (idx, s0)).2.Nodup := by
  induction as generalizing idx s0 with
  | nil => exact h
  | cons a rest ih =>
    rw [List.foldl_cons]
    exact ih _ _ (KeySet.nodup_insert s0 a h)

theorem foldl_insertStep_fst_not_mem (key : K) {as : List A}
    (idx : Table A (KeySet K)) (s0 : KeySet A) {a : A} (h : a ∉ as) :
    Table.lookup (as.foldl (insertStep key) (idx, s0)).1 a =
      Table.lookup idx a := by
  induction as generalizing idx s0 with
  | nil => rfl
  | cons a0 rest ih =>
    rw [List.mem_cons] at h
    push_neg at h
    rw [List.foldl_cons]
    rw [ih _ _ h.2]
    exact Table.lookup_insert_ne idx _ h.1

theorem foldl_insertStep_fst_mono (key : K) (as : List A)
    (idx : Table A (KeySet K)) (s0 : KeySet A) {a : A} {b : KeySet K}
    {k' : K} (hl : Table.lookup idx a = some b) (hm : k' ∈ b) :
    ∃ b', Table.lookup (as.foldl (insertStep key) (idx, s0)).1 a = some b' ∧
      k' ∈ b' := by
  induction as generalizing idx s0 b with
  | nil => exact ⟨b, hl, hm⟩
  | cons a0 rest ih =>
    rw [List.foldl_cons]
    by_cases h : a0 = a
    · subst h
      refine ih _ _ (b := KeySet.insert b key) ?_
        (KeySet.mem_insert_of_mem _ _ hm)
      show Table.lookup (Table.insert idx a0
        (KeySet.insert ((Table.lookup idx a0).getD KeySet.empty) key)) a0
        = some (KeySet.insert b key)
      rw [Table.lookup_insert_self, hl]
      simp
    · refine ih _ _ (b := b) ?_ hm
      show Table.lookup (Table.insert idx a0
        (KeySet.insert ((Table.lookup idx a0).getD KeySet.empty) key)) a
        = some b
      rw [Table.lookup_insert_ne _ _ (fun hh => h hh.symm)]
      exact hl

theorem foldl_insertStep_fst_mem (key : K) {as : List A}
    (idx : Table A (KeySet K)) (s0 : KeySet A) {a : A} (h : a ∈ as) :
    ∃ b, Table.lookup (as.foldl (insertStep key) (idx, s0)).1 a = some b ∧
      key ∈ b := by
  induction as generalizing idx s0 with
  | nil => simp at h
  | cons a0 rest ih =>
    rw [List.foldl_cons]
    by_cases hr : a ∈ rest
    · exact ih _ _ hr
    · have ha0 : a0 = a := by
        rcases List.mem_cons.mp h with rfl | hx
        · rfl
        · exact absurd hx hr
      subst ha0
      rw [foldl_insertStep_fst_not_mem key _ _ hr]
      rw [show (insertStep key (idx, s0) a0).1 = Table.insert idx a0
        (KeySet.insert ((Table.lookup idx a0).getD KeySet.empty) key) from rfl]
      rw [Table.lookup_insert_self]
      exact ⟨_, rfl, KeySet.mem_insert_self _ key⟩

theorem foldl_insertStep_fst_nonempty (key : K) (as : List A)
    (idx : Table A (KeySet K)) (s0 : KeySet A)
    (h : ∀ a b, Table.lookup idx a = some b → b ≠ []) :
    ∀ a b, Table.lookup (as.foldl (insertStep key) (idx, s0)).1 a = some b →
      b ≠ [] := by
  induction as generalizing idx s0 with
  | nil => exact h
  | cons a0 rest ih =>
    rw [List.foldl_cons]
    refine ih _ _ ?_
    intro a b hb
    have hb' : Table.lookup (Table.insert idx a0
        (KeySet.insert ((Table.lookup idx a0).getD KeySet.empty) key)) a
        = some b := hb
    rw [Table.lookup_insert] at hb'
    by_cases ha : a = a0
    · rw [if_pos ha] at hb'
      obtain rfl : KeySet.insert ((Table.lookup idx a0).getD KeySet.empty) key
        = b := Option.some.inj hb'
      exact KeySet.insert_ne_nil _ key
    · rw [if_neg ha] at hb'
      exact h a b hb'

theorem foldl_insertStep_fst_nodup (key : K) (as : List A)
    (idx : Table A (KeySet K)) (s0 : KeySet A)
    (h : ∀ a b, Table.lookup idx a = some b → b.Nodup) :
    ∀ a b, Table.lookup (as.foldl (insertStep key) (idx, s0)).1 a = some b →
      b.Nodup := by
  induction as generalizing idx s0 with
  | nil => exact h
  | cons a0 rest ih =>
    rw [List.foldl_cons]
    refine ih _ _ ?_
    intro a b hb
    have hb' : Table.lookup (Table.insert idx a0
        (KeySet.insert ((Table.lookup idx a0).getD KeySet.empty) key)) a
        = some b := hb
    rw [Table.lookup_insert] at hb'
    by_cases ha : a = a0
    · rw [if_pos ha] at hb'
      obtain rfl : KeySet.insert ((Table.lookup idx a0).getD KeySet.empty) key
        = b := Option.some.inj hb'
      refine KeySet.nodup_insert _ key ?_
      cases hx : Table.lookup idx a0 with
      | none => simp [hx, KeySet.empty]
      | some b0 => simpa [hx] using h a0 b0 hx
    · rw [if_neg ha] at hb'
      exact h a b hb'

end IndexState

namespace IndexState

variable {K V A : Type} [DecidableEq K] [DecidableEq A]

theorem insert_index_fn (s : IndexState K V A) (key : K) (value : V) :
    (insert s key value).index_fn = s.index_fn := rfl

theorem insert_index (s : IndexState K V A) (key : K) (value : V) :
    (insert s key value).index =
      ((s.index_fn key value).foldl (insertStep key) (s.index, KeySet.empty)).1 :=
  rfl

theorem insert_indexed (s : IndexState K V A) (key : K) (value : V) :
    (insert s key value).indexed = Table.insert s.indexed key
      ((s.index_fn key value).foldl (insertStep key) (s.index, KeySet.empty)).2 :=
  rfl

theorem insert_indexed_self (s : IndexState K V A) (key : K) (value : V) :
    ∃ sa, Table.lookup (insert s key value).indexed key = some sa ∧
      sa.Nodup ∧ ∀ x, x ∈ sa ↔ x ∈ s.index_fn key value := by
  rw [insert_indexed, Table.lookup_insert_self]
  refine ⟨_, rfl,
    foldl_insertStep_snd_nodup key _ _ _ (by simp [KeySet.empty]), ?_⟩
  intro x
  rw [foldl_insertStep_snd]
  simp [KeySet.empty]

theorem insert_indexed_ne (s : IndexState K V A) (key : K) (value : V)
    {k' : K} (h : k' ≠ key) :
    Table.lookup (insert s key value).indexed k' =
      Table.lookup s.indexed k' := by
  rw [insert_indexed, Table.lookup_insert_ne _ _ h]

theorem insert_index_mem (s : IndexState K V A) (key : K) (value : V)
    {a : A} (h : a ∈ s.index_fn key value) :
    ∃ b, Table.lookup (insert s key value).index a = some b ∧ key ∈ b := by
  rw [insert_index]
  exact foldl_insertStep_fst_mem key _ _ h

theorem insert_index_not_mem (s : IndexState K V A) (key : K) (value : V)
    {a : A} (h : a ∉ s.index_fn key value) :
    Table.lookup (insert s key value).index a = Table.lookup s.index a := by
  rw [insert_index]
  exact foldl_insertStep_fst_not_mem key _ _ h

theorem insert_index_mono (s : IndexState K V A) (key : K) (value : V)
    {a : A} {b : KeySet K} {k' : K}
    (hl : Table.lookup s.index a = some b) (hm : k' ∈ b) :
    ∃ b', Table.lookup (insert s key value).index a = some b' ∧ k' ∈ b' := by
  rw [insert_index]
  exact foldl_insertStep_fst_mono key _ _ _ hl hm

theorem insert_index_nonempty (s : IndexState K V A) (key : K) (value : V)
    (h : ∀ a b, Table.lookup s.index a = some b → b ≠ []) :
    ∀ a b, Table.lookup (insert s key value).index a = some b → b ≠ [] := by
  intro a b hb
  rw [insert_index] at hb
  exact foldl_insertStep_fst_nonempty key _ _ _ h a b hb

theorem insert_index_nodup (s : IndexState K V A) (key : K) (value : V)
    (h : ∀ a b, Table.lookup s.index a = some b → b.Nodup) :
    ∀ a b, Table.lookup (insert s key value).index a = some b → b.Nodup := by
  intro a b hb
  rw [insert_index] at hb
  exact foldl_insertStep_fst_nodup key _ _ _ h a b hb

@[simp] theorem insertAll_nil (s : IndexState K V A) : insertAll s [] = s := rfl

theorem insertAll_cons (s : IndexState K V A) (kv : K × V)
    (rest : List (K × V)) :
    insertAll s (kv :: rest) = insertAll (insert s kv.1 kv.2) rest := rfl

theorem insertAll_index_fn (s : IndexState K V A) (es : List (K × V)) :
    (insertAll s es).index_fn = s.index_fn := by
  induction es generalizing s with
  | nil => rfl
  | cons kv rest ih => rw [insertAll_cons, ih, insert_index_fn]

theorem insertAll_index_mono (s : IndexState K V A) (es : List (K × V))
    {a : A} {b : KeySet K} {k' : K}
    (hl : Table.lookup s.index a = some b) (hm : k' ∈ b) :
    ∃ b', Table.lookup (insertAll s es).index a = some b' ∧ k' ∈ b' := by
  induction es generalizing s b with
  | nil => exact ⟨b, hl, hm⟩
  | cons kv rest ih =>
    rw [insertAll_cons]
    obtain ⟨b1, hb1, hm1⟩ := insert_index_mono s kv.1 kv.2 hl hm
    exact ih _ hb1 hm1

theorem insertAll_indexed_preserved (s : IndexState K V A)
    (es : List (K × V)) {k : K} (h : ∀ e ∈ es, e.1 ≠ k) :
    Table.lookup (insertAll s es).indexed k = Table.lookup s.indexed k := by
  induction es generalizing s with
  | nil => rfl
  | cons kv rest ih =>
    rw [insertAll_cons, ih _ (fun e he => h e (List.mem_cons_of_mem _ he))]
    exact insert_indexed_ne s kv.1 kv.2 (fun hk => h kv (by simp) hk.symm)

theorem insertAll_indexed_isSome (s : IndexState K V A) (es : List (K × V))
    (k : K) :
    (Table.lookup (insertAll s es).indexed k).isSome ↔
      k ∈ es.map Prod.fst ∨ (Table.lookup s.indexed k).isSome := by
  induction es generalizing s with
  | nil => simp
  | cons kv rest ih =>
    rw [insertAll_cons, ih]
    by_cases hk : k = kv.1
    · subst hk
      rw [insert_indexed, Table.lookup_insert_self]
      simp
    · rw [insert_indexed, Table.lookup_insert_ne _ _ hk]
      simp [hk]

theorem insertAll_index_nonempty (s : IndexState K V A) (es : List (K × V))
    (h : ∀ a b, Table.lookup s.index a = some b → b ≠ []) :
    ∀ a b, Table.lookup (insertAll s es).index a = some b → b ≠ [] := by
  induction es generalizing s with
  | nil => exact h
  | cons kv rest ih =>
    rw [insertAll_cons]
    exact ih _ (insert_index_nonempty s kv.1 kv.2 h)

theorem insertAll_spec (s : IndexState K V A) (es : List (K × V))
    (hnd : (es.map Prod.fst).Nodup) {k : K} {v : V} (hmem : (k, v) ∈ es) :
    (∀ a ∈ s.index_fn k v,
        ∃ b, Table.lookup (insertAll s es).index a = some b ∧ k ∈ b) ∧
    ∃ sa, Table.lookup (insertAll s es).indexed k = some sa ∧
      ∀ x, x ∈ sa ↔ x ∈ s.index_fn k v := by
  induction es generalizing s with
  | nil => simp at hmem
  | cons kv rest ih =>
    rw [List.map_cons, List.nodup_cons] at hnd
    rcases List.mem_cons.mp hmem with heq | hmem'
    · obtain rfl : kv = (k, v) := heq.symm
      rw [insertAll_cons]
      constructor
      · intro a ha
        obtain ⟨b, hb, hkb⟩ := insert_index_mem s k v ha
        exact insertAll_index_mono _ rest hb hkb
      · obtain ⟨sa, hsa, _, hiff⟩ := insert_indexed_self s k v
        have hpres : ∀ e ∈ rest, e.1 ≠ k := by
          intro e he hek
          have hin : e.1 ∈ List.map Prod.fst rest :=
            List.mem_map_of_mem Prod.fst he
          rw [hek] at hin
          exact hnd.1 hin
        exact ⟨sa, by rw [insertAll_indexed_preserved _ rest hpres]; exact hsa,
          hiff⟩
    · rw [insertAll_cons]
      exact ih (insert s kv.1 kv.2) hnd.2 hmem'

end IndexState

/-! ## Lemmas about the type-erased registry -/

namespace TypeTable

variable {K V TC : Type} {El : TC → Type} [DecidableEq TC]

@[simp] theorem lookup_nil_reg (t : TC) :
    lookup ([] : TypeTable K V TC El) t = none := rfl

theorem lookup_cons_reg (t' : TC) (s' : IndexState K V (El t'))
    (rest : TypeTable K V TC El) (t : TC) :
    lookup (⟨t', s'⟩ :: rest) t =
      if h : t' = t then some (h ▸ s') else lookup rest t := rfl

theorem insert_nil_reg (t : TC) (st : IndexState K V (El t)) :
    insert ([] : TypeTable K V TC El) t st = [⟨t, st⟩] := rfl

theorem insert_cons_reg (t' : TC) (s' : IndexState K V (El t'))
    (rest : TypeTable K V TC El) (t : TC) (st : IndexState K V (El t)) :
    insert (⟨t', s'⟩ :: rest) t st =
      if t' = t then ⟨t, st⟩ :: rest else ⟨t', s'⟩ :: insert rest t st := rfl

theorem lookup_insert_same (reg : TypeTable K V TC El) (t : TC)
    (st : IndexState K V (El t)) : lookup (insert reg t st) t = some st := by
  induction reg with
  | nil => rw [insert_nil_reg, lookup_cons_reg, dif_pos rfl]
  | cons e rest ih =>
    obtain ⟨t', s'⟩ := e
    rw [insert_cons_reg]
    by_cases h : t' = t
    · rw [if_pos h, lookup_cons_reg, dif_pos rfl]
    · rw [if_neg h, lookup_cons_reg, dif_neg h]
      exact ih

theorem lookup_insert_other (reg : TypeTable K V TC El) (t : TC)
    (st : IndexState K V (El t)) {t'' : TC} (h : t'' ≠ t) :
    lookup (insert reg t st) t'' = lookup reg t'' := by
  induction reg with
  | nil =>
    rw [insert_nil_reg, lookup_cons_reg, dif_neg (fun hh => h hh.symm), lookup_nil_reg]
  | cons e rest ih =>
    obtain ⟨t', s'⟩ := e
    rw [insert_cons_reg]
    by_cases hh : t' = t
    · subst hh
      rw [if_pos rfl, lookup_cons_reg, lookup_cons_reg,
        dif_neg (fun hx => h hx.symm), dif_neg (fun hx => h hx.symm)]
    · rw [if_neg hh, lookup_cons_reg, lookup_cons_reg]
      by_cases ht : t' = t''
      · rw [dif_pos ht, dif_pos ht]
      · rw [dif_neg ht, dif_neg ht, ih]

omit [DecidableEq TC] in
theorem codes_cons (t' : TC) (s' : IndexState K V (El t'))
    (rest : TypeTable K V TC El) :
    codes (⟨t', s'⟩ :: rest) = t' :: codes rest := rfl

theorem codes_insert (reg : TypeTable K V TC El) (t : TC)
    (st : IndexState K V (El t)) :
    codes (insert reg t st) =
      if t ∈ codes reg then codes reg else codes reg ++ [t] := by
  induction reg with
  | nil => simp [insert_nil_reg, codes]
  | cons e rest ih =>
    obtain ⟨t', s'⟩ := e
    rw [insert_cons_reg, codes_cons]
    by_cases h : t' = t
    · subst h
      rw [if_pos rfl, codes_cons, if_pos (by simp)]
    · rw [if_neg h, codes_cons, ih]
      by_cases hm : t ∈ codes rest
      · rw [if_pos hm, if_pos (by simp [hm])]
      · rw [if_neg hm, if_neg (by simp [hm]; exact fun hx => h hx.symm)]
        simp

theorem lookup_isSome_iff_mem_codes (reg : TypeTable K V TC El) (t : TC) :
    (lookup reg t).isSome ↔ t ∈ codes reg := by
  induction reg with
  | nil => simp [codes]
  | cons e rest ih =>
    obtain ⟨t', s'⟩ := e
    rw [lookup_cons_reg, codes_cons]
    by_cases h : t' = t
    · subst h
      simp
    · rw [dif_neg h, ih]
      constructor
      · exact fun hx => List.mem_cons_of_mem _ hx
      · intro hx
        rcases List.mem_cons.mp hx with hx | hx
        · exact absurd hx.symm h
        · exact hx

theorem lookup_map (reg : TypeTable K V TC El)
    (f : (t : TC) → IndexState K V (El t) → IndexState K V (El t)) (t : TC) :
    lookup (reg.map fun e => ⟨e.1, f e.1 e.2⟩) t =
      (lookup reg t).map (f t) := by
  induction reg with
  | nil => rfl
  | cons e rest ih =>
    obtain ⟨t', s'⟩ := e
    rw [List.map_cons]
    show lookup (⟨t', f t' s'⟩ :: List.map (fun e => ⟨e.1, f e.1 e.2⟩) rest) t
      = Option.map (f t) (lookup (⟨t', s'⟩ :: rest) t)
    rw [lookup_cons_reg, lookup_cons_reg]
    by_cases h : t' = t
    · subst h
      rw [dif_pos rfl, dif_pos rfl]
      rfl
    · rw [dif_neg h, dif_neg h, ih]

omit [DecidableEq TC] in
theorem codes_map (reg : TypeTable K V TC El)
    (f : (t : TC) → IndexState K V (El t) → IndexState K V (El t)) :
    codes (reg.map fun e => ⟨e.1, f e.1 e.2⟩) = codes reg := by
  simp [codes, List.map_map]

end TypeTable

/-! ## Lemmas about the container operations -/

namespace IndexedMap

variable {K V TC : Type} {El : TC → Type}
variable [DecidableEq K] [DecidableEq TC] [∀ t, DecidableEq (El t)]

theorem inner_insert (m : IndexedMap K V TC El) (key : K) (value : V) :
    (m.insert key value).1.inner = Table.insert m.inner key value := rfl

theorem snd_insert (m : IndexedMap K V TC El) (key : K) (value : V) :
    (m.insert key value).2 = Table.lookup m.inner key := rfl

theorem inner_add_index (m : IndexedMap K V TC El) (name : String) (t : TC)
    (index_fn : K → V → List (El t)) :
    (m.add_index name t index_fn).1.inner = m.inner := rfl

@[simp] theorem add_index_token_name (m : IndexedMap K V TC El)
    (name : String) (t : TC) (index_fn : K → V → List (El t)) :
    ((m.add_index name t index_fn).2).name = name := rfl

theorem add_index_indices (m : IndexedMap K V TC El) (name : String) (t : TC)
    (index_fn : K → V → List (El t)) :
    (m.add_index name t index_fn).1.indices =
      Table.insert m.indices name
        (TypeTable.insert ((Table.lookup m.indices name).getD TypeTable.empty)
          t (backfill m.inner index_fn)) := rfl

theorem indices_lookup_insert (m : IndexedMap K V TC El) (key : K)
    (value : V) (name : String) :
    Table.lookup (m.insert key value).1.indices name =
      (Table.lookup m.indices name).map
        (List.map fun e => ⟨e.1, IndexState.insert e.2 key value⟩) :=
  Table.lookup_map_snd _ m.indices name

theorem get_index_state_insert (m : IndexedMap K V TC El) (key : K)
    (value : V) {t : TC} (index_id : IndexId TC t) :
    (m.insert key value).1.get_index_state index_id =
      (m.get_index_state index_id).map
        (fun s => IndexState.insert s key value) := by
  rw [get_index_state, get_index_state, indices_lookup_insert]
  cases hx : Table.lookup m.indices index_id.name with
  | none => rfl
  | some reg =>
    show TypeTable.lookup
      (reg.map fun e => ⟨e.1, IndexState.insert e.2 key value⟩) t = _
    rw [TypeTable.lookup_map reg (fun _ s => IndexState.insert s key value) t]
    rfl

theorem get_index_state_add_index_self (m : IndexedMap K V TC El)
    (name : String) (t : TC) (index_fn : K → V → List (El t)) :
    (m.add_index name t index_fn).1.get_index_state
        ((m.add_index name t index_fn).2) =
      some (backfill m.inner index_fn) := by
  rw [get_index_state, add_index_indices, add_index_token_name,
    Table.lookup_insert_self]
  show TypeTable.lookup (TypeTable.insert _ t (backfill m.inner index_fn)) t
    = some (backfill m.inner index_fn)
  rw [TypeTable.lookup_insert_same]

theorem get_index_state_add_index_ne_name (m : IndexedMap K V TC El)
    (name : String) (t : TC) (index_fn : K → V → List (El t)) {t' : TC}
    (index_id : IndexId TC t') (h : index_id.name ≠ name) :
    (m.add_index name t index_fn).1.get_index_state index_id =
      m.get_index_state index_id := by
  rw [get_index_state, get_index_state, add_index_indices,
    Table.lookup_insert_ne _ _ h]

theorem get_index_state_add_index_ne_type (m : IndexedMap K V TC El)
    (name : String) (t : TC) (index_fn : K → V → List (El t)) {t' : TC}
    (index_id : IndexId TC t') (hname : index_id.name = name) (h : t' ≠ t) :
    (m.add_index name t index_fn).1.get_index_state index_id =
      m.get_index_state index_id := by
  rw [get_index_state, get_index_state, add_index_indices, hname,
    Table.lookup_insert_self]
  cases hx : Table.lookup m.indices name with
  | none =>
    show TypeTable.lookup
      (TypeTable.insert TypeTable.empty t (backfill m.inner index_fn)) t'
      = none
    rw [TypeTable.lookup_insert_other _ _ _ h]
    rfl
  | some reg =>
    show TypeTable.lookup
      (TypeTable.insert reg t (backfill m.inner index_fn)) t'
      = TypeTable.lookup reg t'
    exact TypeTable.lookup_insert_other _ _ _ h

@[simp] theorem insertAll_nil_eq (m : IndexedMap K V TC El) :
    insertAll m [] = m := rfl

theorem insertAll_cons_eq (m : IndexedMap K V TC El) (kv : K × V)
    (rest : List (K × V)) :
    insertAll m (kv :: rest) = insertAll (m.insert kv.1 kv.2).1 rest := rfl

theorem inner_insertAll (m : IndexedMap K V TC El) (es : List (K × V)) :
    (insertAll m es).inner =
      es.foldl (fun acc kv => Table.insert acc kv.1 kv.2) m.inner := by
  induction es generalizing m with
  | nil => rfl
  | cons kv rest ih => rw [insertAll_cons_eq, ih, List.foldl_cons, inner_insert]

theorem get_index_state_insertAll (m : IndexedMap K V TC El)
    (es : List (K × V)) {t : TC} (index_id : IndexId TC t) :
    (insertAll m es).get_index_state index_id =
      (m.get_index_state index_id).map
        (fun s => IndexState.insertAll s es) := by
  induction es generalizing m with
  | nil =>
    show m.get_index_state index_id =
      (m.get_index_state index_id).map (fun s => IndexState.insertAll s [])
    cases m.get_index_state index_id <;> rfl
  | cons kv rest ih =>
    rw [insertAll_cons_eq, ih, get_index_state_insert]
    cases m.get_index_state index_id <;> rfl

theorem get_index_state_new {t : TC} (index_id : IndexId TC t) :
    (new : IndexedMap K V TC El).get_index_state index_id = none := rfl

end IndexedMap

/-! ## Invariants of reachable containers -/

theorem IndexedMap.backfill_eq {K V : Type} [DecidableEq K]
    {A : Type} [DecidableEq A]
    (entries : Table K V) (index_fn : K → V → List A) :
    IndexedMap.backfill entries index_fn =
      IndexState.insertAll (IndexState.empty index_fn) entries := rfl

theorem IndexState.empty_index_fn {K V A : Type} (index_fn : K → V → List A) :
    (IndexState.empty index_fn).index_fn = index_fn := rfl

theorem IndexState.empty_index {K V A : Type} (index_fn : K → V → List A) :
    (IndexState.empty index_fn).index = Table.empty := rfl

theorem IndexState.empty_indexed {K V A : Type} (index_fn : K → V → List A) :
    (IndexState.empty index_fn).indexed = Table.empty := rfl

theorem TypeTable.codes_map_insert {K V TC : Type} {El : TC → Type}
    [DecidableEq K] [∀ t, DecidableEq (El t)]
    (reg : TypeTable K V TC El) (key : K) (value : V) :
    codes (reg.map fun e => ⟨e.1, IndexState.insert e.2 key value⟩) =
      codes reg := by
  simp [codes, List.map_map]

theorem reachable_codes_nodup {K V TC : Type} {El : TC → Type}
    [DecidableEq K] [DecidableEq TC] [∀ t, DecidableEq (El t)]
    {m : IndexedMap K V TC El} (hm : Reachable m) :
    ∀ name reg, Table.lookup m.indices name = some reg →
      (TypeTable.codes reg).Nodup := by
  induction hm with
  | new =>
    intro name reg h
    exact Option.noConfusion h
  | insert m key value hm ih =>
    intro name reg h
    rw [IndexedMap.indices_lookup_insert] at h
    cases hx : Table.lookup m.indices name with
    | none => rw [hx] at h; exact Option.noConfusion h
    | some reg0 =>
      rw [hx] at h
      obtain rfl : reg0.map (fun e => ⟨e.1, IndexState.insert e.2 key value⟩)
        = reg := Option.some.inj h
      rw [TypeTable.codes_map_insert reg0 key value]
      exact ih name reg0 hx
  | add_index m name t index_fn hm ih =>
    intro name' reg h
    rw [IndexedMap.add_index_indices, Table.lookup_insert] at h
    by_cases hname : name' = name
    · rw [if_pos hname] at h
      obtain rfl := Option.some.inj h
      cases hx : Table.lookup m.indices name with
      | none =>
        simp only [Option.getD_none]
        rw [TypeTable.codes_insert]
        simp [TypeTable.empty, TypeTable.codes]
      | some reg0 =>
        have hnd0 := ih name reg0 hx
        simp only [Option.getD_some]
        rw [TypeTable.codes_insert]
        by_cases hmem : t ∈ TypeTable.codes reg0
        · rw [if_pos hmem]; exact hnd0
        · rw [if_neg hmem]
          simp [List.nodup_append, hnd0, hmem]
    · rw [if_neg hname] at h
      exact ih name' reg h

theorem reachable_indexed_iff_inner {K V TC : Type} {El : TC → Type}
    [DecidableEq K] [DecidableEq TC] [∀ t, DecidableEq (El t)]
    {m : IndexedMap K V TC El} (hm : Reachable m) :
    ∀ (t : TC) (index_id : IndexId TC t) st,
      m.get_index_state index_id = some st →
      ∀ k, (Table.lookup st.indexed k).isSome ↔
        (Table.lookup m.inner k).isSome := by
  induction hm with
  | new =>
    intro t index_id st h
    exact Option.noConfusion h
  | insert m key value hm ih =>
    intro t index_id st h k
    rw [IndexedMap.get_index_state_insert] at h
    cases hx : m.get_index_state index_id with
    | none => rw [hx] at h; exact Option.noConfusion h
    | some st0 =>
      rw [hx] at h
      obtain rfl : IndexState.insert st0 key value = st := Option.some.inj h
      rw [IndexedMap.inner_insert]
      by_cases hk : k = key
      · subst hk
        rw [IndexState.insert_indexed, Table.lookup_insert_self,
          Table.lookup_insert_self]
        simp
      · rw [IndexState.insert_indexed_ne st0 key value hk,
          Table.lookup_insert_ne _ _ hk]
        exact ih t index_id st0 hx k
  | add_index m name t index_fn hm ih =>
    intro t' index_id st h k
    rw [IndexedMap.inner_add_index]
    by_cases hname : index_id.name = name
    · by_cases ht : t' = t
      · subst ht
        have hid : index_id = (⟨name⟩ : IndexId TC t') := by rw [← hname]
        have hself := IndexedMap.get_index_state_add_index_self m name t'
          index_fn
        rw [show (m.add_index name t' index_fn).2 = (⟨name⟩ : IndexId TC t')
          from rfl] at hself
        rw [hid, hself] at h
        obtain rfl : IndexedMap.backfill m.inner index_fn = st :=
          Option.some.inj h
        rw [IndexedMap.backfill_eq, IndexState.insertAll_indexed_isSome,
          IndexState.empty_indexed, Table.lookup_isSome_iff_mem_keys]
        simp only [Table.empty, Table.lookup_nil, Option.isSome_none,
          Bool.false_eq_true, or_false]
        rw [Table.lookup_isSome_iff_mem_keys]
        simp [Table.keys]
      · rw [IndexedMap.get_index_state_add_index_ne_type m name t index_fn
          index_id hname ht] at h
        exact ih t' index_id st h k
    · rw [IndexedMap.get_index_state_add_index_ne_name m name t index_fn
        index_id hname] at h
      exact ih t' index_id st h k

theorem reachable_buckets_nonempty {K V TC : Type} {El : TC → Type}
    [DecidableEq K] [DecidableEq TC] [∀ t, DecidableEq (El t)]
    {m : IndexedMap K V TC El} (hm : Reachable m) :
    ∀ (t : TC) (index_id : IndexId TC t) st,
      m.get_index_state index_id = some st →
      ∀ a b, Table.lookup st.index a = some b → b ≠ [] := by
  induction hm with
  | new =>
    intro t index_id st h
    exact Option.noConfusion h
  | insert m key value hm ih =>
    intro t index_id st h
    rw [IndexedMap.get_index_state_insert] at h
    cases hx : m.get_index_state index_id with
    | none => rw [hx] at h; exact Option.noConfusion h
    | some st0 =>
      rw [hx] at h
      obtain rfl : IndexState.insert st0 key value = st := Option.some.inj h
      exact IndexState.insert_index_nonempty st0 key value
        (ih t index_id st0 hx)
  | add_index m name t index_fn hm ih =>
    intro t' index_id st h
    by_cases hname : index_id.name = name
    · by_cases ht : t' = t
      · subst ht
        have hid : index_id = (⟨name⟩ : IndexId TC t') := by rw [← hname]
        have hself := IndexedMap.get_index_state_add_index_self m name t'
          index_fn
        rw [show (m.add_index name t' index_fn).2 = (⟨name⟩ : IndexId TC t')
          from rfl] at hself
        rw [hid, hself] at h
        obtain rfl : IndexedMap.backfill m.inner index_fn = st :=
          Option.some.inj h
        rw [IndexedMap.backfill_eq]
        refine IndexState.insertAll_index_nonempty _ _ ?_
        intro a b hb
        exact Option.noConfusion hb
      · rw [IndexedMap.get_index_state_add_index_ne_type m name t index_fn
          index_id hname ht] at h
        exact ih t' index_id st h
    · rw [IndexedMap.get_index_state_add_index_ne_name m name t index_fn
        index_id hname] at h
      exact ih t' index_id st h

theorem noOverwrite_inner_keys_nodup {K V TC : Type} {El : TC → Type}
    [DecidableEq K] [DecidableEq TC] [∀ t, DecidableEq (El t)]
    {m : IndexedMap K V TC El} (hm : ReachableNoOverwrite m) :
    (Table.keys m.inner).Nodup := by
  induction hm with
  | new => exact List.nodup_nil
  | insert m key value hm hfresh ih =>
    rw [IndexedMap.inner_insert]
    exact Table.keys_nodup_insert m.inner key value ih
  | add_index m name t index_fn hm ih =>
    rw [IndexedMap.inner_add_index]
    exact ih

theorem noOverwrite_index_correct {K V TC : Type} {El : TC → Type}
    [DecidableEq K] [DecidableEq TC] [∀ t, DecidableEq (El t)]
    {m : IndexedMap K V TC El} (hm : ReachableNoOverwrite m) :
    ∀ (t : TC) (index_id : IndexId TC t) st,
      m.get_index_state index_id = some st →
      ∀ k v, Table.lookup m.inner k = some v →
        (∀ a ∈ st.index_fn k v,
            ∃ b, Table.lookup st.index a = some b ∧ k ∈ b) ∧
        ∃ sa, Table.lookup st.indexed k = some sa ∧
          ∀ x, x ∈ sa ↔ x ∈ st.index_fn k v := by
  induction hm with
  | new =>
    intro t index_id st h
    exact Option.noConfusion h
  | insert m key value hm hfresh ih =>
    intro t index_id st h k v hkv
    rw [IndexedMap.get_index_state_insert] at h
    cases hx : m.get_index_state index_id with
    | none => rw [hx] at h; exact Option.noConfusion h
    | some st0 =>
      rw [hx] at h
      obtain rfl : IndexState.insert st0 key value = st := Option.some.inj h
      rw [IndexedMap.inner_insert, Table.lookup_insert] at hkv
      rw [IndexState.insert_index_fn]
      by_cases hk : k = key
      · subst hk
        rw [if_pos rfl] at hkv
        obtain rfl : value = v := Option.some.inj hkv
        constructor
        · intro a ha
          exact IndexState.insert_index_mem st0 k value ha
        · obtain ⟨sa, hsa, _, hiff⟩ :=
            IndexState.insert_indexed_self st0 k value
          exact ⟨sa, hsa, hiff⟩
      · rw [if_neg hk] at hkv
        obtain ⟨hfwd, hrev⟩ := ih t index_id st0 hx k v hkv
        constructor
        · intro a ha
          obtain ⟨b, hb, hkb⟩ := hfwd a ha
          exact IndexState.insert_index_mono st0 key value hb hkb
        · obtain ⟨sa, hsa, hiff⟩ := hrev
          exact ⟨sa, by
            rw [IndexState.insert_indexed_ne st0 key value hk]; exact hsa,
            hiff⟩
  | add_index m name t index_fn hm ih =>
    intro t' index_id st h k v hkv
    rw [IndexedMap.inner_add_index] at hkv
    by_cases hname : index_id.name = name
    · by_cases ht : t' = t
      · subst ht
        have hid : index_id = (⟨name⟩ : IndexId TC t') := by rw [← hname]
        have hself := IndexedMap.get_index_state_add_index_self m name t'
          index_fn
        rw [show (m.add_index name t' index_fn).2 = (⟨name⟩ : IndexId TC t')
          from rfl] at hself
        rw [hid, hself] at h
        obtain rfl : IndexedMap.backfill m.inner index_fn = st :=
          Option.some.inj h
        have hnd : (m.inner.map Prod.fst).Nodup :=
          noOverwrite_inner_keys_nodup hm
        have hmem : (k, v) ∈ m.inner := Table.mem_of_lookup_eq_some hkv
        have hspec := IndexState.insertAll_spec (IndexState.empty index_fn)
          m.inner hnd hmem
        rw [IndexedMap.backfill_eq]
        rw [show (IndexState.insertAll (IndexState.empty index_fn)
          m.inner).index_fn = index_fn from
          IndexState.insertAll_index_fn (IndexState.empty index_fn) m.inner]
        exact hspec
      · rw [IndexedMap.get_index_state_add_index_ne_type m name t index_fn
          index_id hname ht] at h
        exact ih t' index_id st h k v hkv
    · rw [IndexedMap.get_index_state_add_index_ne_name m name t index_fn
        index_id hname] at h
      exact ih t' index_id st h k v hkv

theorem Table.foldl_collect_lookup {K V : Type} [DecidableEq K]
    (f : K → Option V) (ks : List K) (acc : Table K V) (k : K) :
    Table.lookup (ks.foldl (fun acc k =>
        match f k with
        | some v => Table.insert acc k v
        | none => acc) acc) k
      = if k ∈ ks ∧ (f k).isSome then f k else Table.lookup acc k := by
  induction ks generalizing acc with
  | nil => simp
  | cons k0 rest ih =>
    rw [List.foldl_cons, ih]
    by_cases hmem : k ∈ rest ∧ (f k).isSome
    · rw [if_pos hmem, if_pos ⟨List.mem_cons_of_mem _ hmem.1, hmem.2⟩]
    · rw [if_neg hmem]
      by_cases hk : k = k0
      · subst hk
        cases hf : f k with
        | some v =>
          rw [if_pos ⟨by simp, by simp⟩]
          show Table.lookup (Table.insert acc k v) k = some v
          exact Table.lookup_insert_self acc k v
        | none =>
          rw [if_neg (by rintro ⟨_, hs⟩; simp at hs)]
      · have hninc : ¬(k ∈ k0 :: rest ∧ (f k).isSome) := by
          rintro ⟨hin, hs⟩
          rcases List.mem_cons.mp hin with heq | hin
          · exact hk heq
          · exact hmem ⟨hin, hs⟩
        rw [if_neg hninc]
        cases hf : f k0 with
        | some v =>
          show Table.lookup (Table.insert acc k0 v) k = Table.lookup acc k
          exact Table.lookup_insert_ne acc v hk
        | none => rfl

/-! ## The claims -/

/-- C1: `filter_by_index(token, a)` returns exactly the map of pairs
`(k, v)` where `k` is in the forward bucket for `a` and `v` is `k`'s
current value in the primary store (keys absent from the store are
dropped); if the index resolved by the token is absent, it returns
empty. -/
theorem filter_by_index_correct {K V TC : Type} {El : TC → Type}
    [DecidableEq K] [DecidableEq TC] [∀ t, DecidableEq (El t)]
    (m : IndexedMap K V TC El) {t : TC} (index_id : IndexId TC t)
    (a : El t) :
    (∀ st, m.get_index_state index_id = some st →
      ∀ ks, Table.lookup st.index a = some ks →
        ∃ res, m.filter_by_index index_id a = some res ∧
          ∀ k v, Table.lookup res k = some v ↔
            k ∈ ks ∧ Table.lookup m.inner k = some v)
    ∧ (m.get_index_state index_id = none →
        m.filter_by_index index_id a = none) := by
  constructor
  · intro st hst ks hks
    have h1 : m.get_index index_id = some st.index := by
      rw [IndexedMap.get_index, hst]
      rfl
    have h2 : m.filter_by_index index_id a
        = some (ks.foldl (fun acc k =>
            match Table.lookup m.inner k with
            | some v => Table.insert acc k v
            | none => acc) Table.empty) := by
      rw [IndexedMap.filter_by_index, h1]
      show (Table.lookup st.index a).map _ = _
      rw [hks]
      rfl
    refine ⟨_, h2, ?_⟩
    intro k v
    rw [Table.foldl_collect_lookup]
    by_cases hc : k ∈ ks ∧ (Table.lookup m.inner k).isSome
    · rw [if_pos hc]
      exact ⟨fun hv => ⟨hc.1, hv⟩, fun hv => hv.2⟩
    · rw [if_neg hc]
      constructor
      · intro hv
        exact absurd hv (by simp [Table.empty])
      · rintro ⟨hin, hv⟩
        exact absurd ⟨hin, by rw [hv]; rfl⟩ hc
  · intro hnone
    rw [IndexedMap.filter_by_index, IndexedMap.get_index, hnone]
    rfl

/-- C1 witness: the concrete container of the crate's test shape. -/
theorem filter_by_index_correct_witness :
    ∃ res, exM.filter_by_index exTok ((10 : Nat) : ElB true) = some res ∧
      ∀ k v, Table.lookup res k = some v ↔
        k ∈ ([2, 1] : KeySet Nat) ∧ Table.lookup exM.inner k = some v :=
  (filter_by_index_correct exM exTok ((10 : Nat) : ElB true)).1 exSt rfl
    [2, 1] rfl

/-- C2: in a container built by `add_index` and `insert` with no primary
key inserted twice, every entry's key appears in the forward bucket of
every secondary key its `index_fn` produces (so a multi-valued `index_fn`
puts the key under every one of those buckets), and the reverse entry
equals exactly that set, for every registered index. -/
theorem no_overwrite_index_invariant {K V TC : Type} {El : TC → Type}
    [DecidableEq K] [DecidableEq TC] [∀ t, DecidableEq (El t)]
    {m : IndexedMap K V TC El} (hm : ReachableNoOverwrite m) :
    ∀ (t : TC) (index_id : IndexId TC t) st,
      m.get_index_state index_id = some st →
      ∀ k v, Table.lookup m.inner k = some v →
        (∀ a ∈ st.index_fn k v,
            ∃ b, Table.lookup st.index a = some b ∧ k ∈ b) ∧
        ∃ sa, Table.lookup st.indexed k = some sa ∧
          ∀ x, x ∈ sa ↔ x ∈ st.index_fn k v :=
  noOverwrite_index_correct hm

/-- C2 witness: a two-valued index function over two fresh inserts. -/
theorem no_overwrite_index_invariant_witness :
    (∀ a ∈ exSt.index_fn 1 10,
        ∃ b, Table.lookup exSt.index a = some b ∧ 1 ∈ b) ∧
    ∃ sa, Table.lookup exSt.indexed 1 = some sa ∧
      ∀ x, x ∈ sa ↔ x ∈ exSt.index_fn 1 10 := by
  have hr : ReachableNoOverwrite exM := by
    refine ReachableNoOverwrite.insert _ 2 10 ?_ rfl
    refine ReachableNoOverwrite.add_index _ "len" true _ ?_
    refine ReachableNoOverwrite.insert _ 1 10 ?_ rfl
    exact ReachableNoOverwrite.new
  exact no_overwrite_index_invariant hr true exTok exSt rfl 1 10 rfl

/-- C3: for entries with pairwise-distinct primary keys (the entries of a
keyed store), inserting them and then creating the index yields the same
forward map as creating the index first and inserting them incrementally;
the result is a present index either way. -/
theorem backfill_incremental_equivalence {K V TC : Type} {El : TC → Type}
    [DecidableEq K] [DecidableEq TC] [∀ t, DecidableEq (El t)]
    (entries : List (K × V)) (hnd : (entries.map Prod.fst).Nodup)
    (name : String) (t : TC) (index_fn : K → V → List (El t)) :
    ((IndexedMap.insertAll (IndexedMap.new : IndexedMap K V TC El)
        entries).add_index name t index_fn).1.get_index
      ((IndexedMap.insertAll (IndexedMap.new : IndexedMap K V TC El)
        entries).add_index name t index_fn).2
    = (IndexedMap.insertAll
        ((IndexedMap.new : IndexedMap K V TC El).add_index name t
          index_fn).1 entries).get_index
      ((IndexedMap.new : IndexedMap K V TC El).add_index name t
        index_fn).2
    ∧ (((IndexedMap.insertAll (IndexedMap.new : IndexedMap K V TC El)
        entries).add_index name t index_fn).1.get_index
      ((IndexedMap.insertAll (IndexedMap.new : IndexedMap K V TC El)
        entries).add_index name t index_fn).2).isSome := by
  have hinner : (IndexedMap.insertAll
      (IndexedMap.new : IndexedMap K V TC El) entries).inner = entries := by
    rw [IndexedMap.inner_insertAll]
    exact Table.foldl_insert_eq_self hnd
  constructor
  · rw [IndexedMap.get_index, IndexedMap.get_index,
      IndexedMap.get_index_state_add_index_self,
      IndexedMap.get_index_state_insertAll,
      IndexedMap.get_index_state_add_index_self, hinner,
      IndexedMap.backfill_eq]
    rfl
  · rw [IndexedMap.get_index, IndexedMap.get_index_state_add_index_self]
    rfl

/-- C3 witness: two distinct-keyed entries around a value index. -/
theorem backfill_incremental_equivalence_witness :
    ((IndexedMap.insertAll (IndexedMap.new : IndexedMap Nat Nat Bool ElB)
        [(1, 10), (2, 20)]).add_index "n" true (fun _ v => [v])).1.get_index
      ((IndexedMap.insertAll (IndexedMap.new : IndexedMap Nat Nat Bool ElB)
        [(1, 10), (2, 20)]).add_index "n" true (fun _ v => [v])).2
    = (IndexedMap.insertAll
        ((IndexedMap.new : IndexedMap Nat Nat Bool ElB).add_index "n" true
          (fun _ v => [v])).1 [(1, 10), (2, 20)]).get_index
      ((IndexedMap.new : IndexedMap Nat Nat Bool ElB).add_index "n" true
        (fun _ v => [v])).2
    ∧ (((IndexedMap.insertAll (IndexedMap.new : IndexedMap Nat Nat Bool ElB)
        [(1, 10), (2, 20)]).add_index "n" true (fun _ v => [v])).1.get_index
      ((IndexedMap.insertAll (IndexedMap.new : IndexedMap Nat Nat Bool ElB)
        [(1, 10), (2, 20)]).add_index "n" true
        (fun _ v => [v])).2).isSome :=
  @backfill_incremental_equivalence Nat Nat Bool ElB _ _ _
    [(1, 10), (2, 20)] (by decide) "n" true (fun _ v => [v])

/-- C4: re-registering an existing (name, type) pair replaces that index:
the token then resolves to a state recomputed solely from the current
primary store (prior state discarded), and exactly one state is registered
at the pair afterwards. -/
theorem add_index_replaces_same_pair {K V TC : Type} {El : TC → Type}
    [DecidableEq K] [DecidableEq TC] [∀ t, DecidableEq (El t)]
    (m : IndexedMap K V TC El) (hm : Reachable m) (name : String) (t : TC)
    (fn2 : K → V → List (El t))
    (hex : (m.get_index_state (⟨name⟩ : IndexId TC t)).isSome) :
    (m.add_index name t fn2).1.get_index_state (⟨name⟩ : IndexId TC t)
      = some (IndexedMap.backfill m.inner fn2)
    ∧ ∀ reg,
        Table.lookup (m.add_index name t fn2).1.indices name = some reg →
        (TypeTable.codes reg).count t = 1 := by
  constructor
  · have h := IndexedMap.get_index_state_add_index_self m name t fn2
    rw [show (m.add_index name t fn2).2 = (⟨name⟩ : IndexId TC t) from rfl]
      at h
    exact h
  · intro reg hreg
    rw [IndexedMap.add_index_indices, Table.lookup_insert_self] at hreg
    obtain rfl := Option.some.inj hreg
    rw [TypeTable.codes_insert]
    cases hx : Table.lookup m.indices name with
    | none =>
      simp only [Option.getD_none]
      simp [TypeTable.empty, TypeTable.codes]
    | some oldreg =>
      simp only [Option.getD_some]
      have hnd := reachable_codes_nodup hm name oldreg hx
      by_cases hmem : t ∈ TypeTable.codes oldreg
      · rw [if_pos hmem]
        exact List.count_eq_one_of_mem hnd hmem
      · rw [if_neg hmem, List.count_append,
          List.count_eq_zero_of_not_mem hmem]
        simp

/-- C4 witness: re-register the ("len", Nat) index of the running
example. -/
theorem add_index_replaces_same_pair_witness :
    (exM.add_index "len" true (fun _ v => [v + 1])).1.get_index_state
        (⟨"len"⟩ : IndexId Bool true)
      = some (IndexedMap.backfill exM.inner (fun _ v => [v + 1]))
    ∧ ∀ reg,
        Table.lookup (exM.add_index "len" true
          (fun _ v => [v + 1])).1.indices "len" = some reg →
        (TypeTable.codes reg).count true = 1 := by
  have hr : Reachable exM := by
    refine Reachable.insert _ 2 10 ?_
    refine Reachable.add_index _ "len" true _ ?_
    refine Reachable.insert _ 1 10 ?_
    exact Reachable.new
  exact add_index_replaces_same_pair exM hr "len" true (fun _ v => [v + 1])
    rfl

/-- C5: `IndexState::insert` for an existing key leaves the key's prior
forward-map memberships in place — buckets for secondary keys the new value
does not produce are unchanged, and the key stays a member of every bucket
it was in — while only the reverse-map entry for that key is replaced
(other keys' reverse entries are untouched). -/
theorem overwrite_keeps_forward_memberships {K V A : Type} [DecidableEq K]
    [DecidableEq A] (st : IndexState K V A) (key : K) (value : V) :
    (∀ a b, Table.lookup st.index a = some b → key ∈ b →
        ∃ b', Table.lookup (IndexState.insert st key value).index a
            = some b' ∧ key ∈ b')
    ∧ (∀ a, a ∉ st.index_fn key value →
        Table.lookup (IndexState.insert st key value).index a
          = Table.lookup st.index a)
    ∧ (∃ sa, Table.lookup (IndexState.insert st key value).indexed key
          = some sa ∧ ∀ x, x ∈ sa ↔ x ∈ st.index_fn key value)
    ∧ (∀ k', k' ≠ key →
        Table.lookup (IndexState.insert st key value).indexed k'
          = Table.lookup st.indexed k') := by
  refine ⟨?_, ?_, ?_, ?_⟩
  · intro a b hb hk
    exact IndexState.insert_index_mono st key value hb hk
  · intro a ha
    exact IndexState.insert_index_not_mem st key value ha
  · obtain ⟨sa, hsa, _, hiff⟩ := IndexState.insert_indexed_self st key value
    exact ⟨sa, hsa, hiff⟩
  · intro k' hk'
    exact IndexState.insert_indexed_ne st key value hk'

/-- C5 witness: overwrite key 1 (previous value 10, secondary key 10) with
value 99; the stale bucket 10 keeps key 1, and the reverse entry becomes
exactly the set for the new value. -/
theorem overwrite_keeps_forward_memberships_witness :
    (∃ b', Table.lookup (IndexState.insert exSt0 1 99).index 10 = some b' ∧
        1 ∈ b')
    ∧ Table.lookup (IndexState.insert exSt0 1 99).index 10
        = Table.lookup exSt0.index 10
    ∧ (∃ sa, Table.lookup (IndexState.insert exSt0 1 99).indexed 1
          = some sa ∧ ∀ x, x ∈ sa ↔ x ∈ exSt0.index_fn 1 99)
    ∧ Table.lookup (IndexState.insert exSt0 1 99).indexed 2
        = Table.lookup exSt0.indexed 2 := by
  obtain ⟨h1, h2, h3, h4⟩ := overwrite_keeps_forward_memberships exSt0 1 99
  exact ⟨h1 10 [1] rfl (by decide), h2 10 (by decide), h3,
    h4 2 (by decide)⟩

/-- C6: `IndexState::insert` adds the key once to the bucket of each
distinct produced secondary key (creating absent buckets, treating a
duplicated secondary key as a single membership, leaving buckets of
unproduced keys unchanged), and replaces the reverse entry of the key with
the deduplicated set of the produced secondary keys. -/
theorem index_state_insert_spec {K V A : Type} [DecidableEq K]
    [DecidableEq A] (st : IndexState K V A) (key : K) (value : V) :
    (∀ a, a ∈ st.index_fn key value →
        ∃ b, Table.lookup (IndexState.insert st key value).index a
            = some b ∧ key ∈ b)
    ∧ (∀ a, a ∉ st.index_fn key value →
        Table.lookup (IndexState.insert st key value).index a
          = Table.lookup st.index a)
    ∧ (∃ sa, Table.lookup (IndexState.insert st key value).indexed key
          = some sa ∧ sa.Nodup ∧
          ∀ x, x ∈ sa ↔ x ∈ st.index_fn key value)
    ∧ ((∀ a b, Table.lookup st.index a = some b → b.Nodup) →
        ∀ a b, Table.lookup (IndexState.insert st key value).index a
            = some b → b.Nodup) := by
  refine ⟨?_, ?_, IndexState.insert_indexed_self st key value, ?_⟩
  · intro a ha
    exact IndexState.insert_index_mem st key value ha
  · intro a ha
    exact IndexState.insert_index_not_mem st key value ha
  · exact IndexState.insert_index_nodup st key value

/-- C6 witness: an index function that returns the same secondary key
twice. -/
theorem index_state_insert_spec_witness :
    (∃ b, Table.lookup
        (IndexState.insert (IndexState.empty exDupFn) 1 10).index 10
        = some b ∧ 1 ∈ b)
    ∧ Table.lookup (IndexState.insert (IndexState.empty exDupFn) 1 10).index
        7 = Table.lookup (IndexState.empty exDupFn).index 7
    ∧ (∃ sa, Table.lookup
          (IndexState.insert (IndexState.empty exDupFn) 1 10).indexed 1
          = some sa ∧ sa.Nodup ∧
          ∀ x, x ∈ sa ↔ x ∈ (IndexState.empty exDupFn).index_fn 1 10)
    ∧ (∀ a b, Table.lookup
          (IndexState.insert (IndexState.empty exDupFn) 1 10).index a
          = some b → b.Nodup) := by
  obtain ⟨h1, h2, h3, h4⟩ :=
    index_state_insert_spec (IndexState.empty exDupFn) 1 10
  exact ⟨h1 10 (by decide), h2 7 (by decide), h3,
    h4 (fun a b hb => Option.noConfusion hb)⟩

/-- C7: a query whose token resolves to no state of its name and type
identity — in particular when only states of a different type exist under
that name — yields an empty result (the operations are total functions, so
no undefined behavior or runtime type error can occur); and two indices of
distinct secondary-key types registered under the same name coexist, each
token resolving to its own state. -/
theorem type_mismatch_safe {K V TC : Type} {El : TC → Type}
    [DecidableEq K] [DecidableEq TC] [∀ t, DecidableEq (El t)] :
    (∀ (m : IndexedMap K V TC El) (t : TC) (index_id : IndexId TC t)
        (a : El t),
      (∀ reg, Table.lookup m.indices index_id.name = some reg →
          TypeTable.lookup reg t = none) →
      m.get_index index_id = none ∧ m.filter_by_index index_id a = none ∧
        m.keys_by_index index_id a = none)
    ∧ (∀ (m : IndexedMap K V TC El) (name : String) (t1 t2 : TC)
        (fn1 : K → V → List (El t1)) (fn2 : K → V → List (El t2)),
        t1 ≠ t2 →
        ((m.add_index name t1 fn1).1.add_index name t2
            fn2).1.get_index_state (m.add_index name t1 fn1).2
          = some (IndexedMap.backfill m.inner fn1)
        ∧ ((m.add_index name t1 fn1).1.add_index name t2
            fn2).1.get_index_state
            ((m.add_index name t1 fn1).1.add_index name t2 fn2).2
          = some (IndexedMap.backfill m.inner fn2)) := by
  constructor
  · intro m t index_id a h
    have hnone : m.get_index_state index_id = none := by
      show (Table.lookup m.indices index_id.name).bind
        (fun x => TypeTable.lookup x t) = none
      cases hx : Table.lookup m.indices index_id.name with
      | none => rfl
      | some reg => exact h reg hx
    refine ⟨?_, ?_, ?_⟩
    · rw [IndexedMap.get_index, hnone]
      rfl
    · rw [IndexedMap.filter_by_index, IndexedMap.get_index, hnone]
      rfl
    · rw [IndexedMap.keys_by_index, IndexedMap.get_index, hnone]
      rfl
  · intro m name t1 t2 fn1 fn2 hne
    constructor
    · have h1 := IndexedMap.get_index_state_add_index_ne_type
        (m.add_index name t1 fn1).1 name t2 fn2
        (m.add_index name t1 fn1).2 rfl hne
      rw [h1]
      exact IndexedMap.get_index_state_add_index_self m name t1 fn1
    · have h2 := IndexedMap.get_index_state_add_index_self
        (m.add_index name t1 fn1).1 name t2 fn2
      rw [IndexedMap.inner_add_index] at h2
      exact h2

/-- C7 witness: a token of type `String` against the `Nat`-typed "len"
index, and coexistence of ("n", Nat) and ("n", String). -/
theorem type_mismatch_safe_witness :
    (exM.get_index (⟨"len"⟩ : IndexId Bool false) = none ∧
      exM.filter_by_index (⟨"len"⟩ : IndexId Bool false)
        (("abc" : String) : ElB false) = none ∧
      exM.keys_by_index (⟨"len"⟩ : IndexId Bool false)
        (("abc" : String) : ElB false) = none)
    ∧ (((exM0.add_index "n" true (fun _ v => [v])).1.add_index "n" false
          (fun _ _ => ["x"])).1.get_index_state
          (exM0.add_index "n" true (fun _ v => [v])).2
        = some (IndexedMap.backfill exM0.inner (fun _ v => [v]))
      ∧ ((exM0.add_index "n" true (fun _ v => [v])).1.add_index "n" false
          (fun _ _ => ["x"])).1.get_index_state
          ((exM0.add_index "n" true (fun _ v => [v])).1.add_index "n" false
            (fun _ _ => ["x"])).2
        = some (IndexedMap.backfill exM0.inner (fun _ _ => ["x"]))) := by
  constructor
  · exact type_mismatch_safe.1 exM false ⟨"len"⟩
      (("abc" : String) : ElB false) (fun reg h => by cases h; rfl)
  · exact type_mismatch_safe.2 exM0 "n" true false (fun _ v => [v])
      (fun _ _ => ["x"]) (by decide)

/-- C8 (counterexample): after registering ("i", String) over an existing
("i", Nat) registration, `get_index` with the earlier Nat-typed token does
not return empty — it still returns the earlier index's forward map. -/
theorem stale_token_counterexample :
    c8r2.1.get_index c8r1.2 = some [((4 : Nat), [1])] ∧
      c8r2.1.get_index c8r1.2 ≠ none := by
  constructor
  · rfl
  · decide

/-- C8 (amended): a later `add_index` under the same name with a different
secondary-key type does not replace the earlier registration: `get_index`
with the earlier token still returns that registration's forward map, not
empty — the two registrations coexist. -/
theorem stale_token_amended {K V TC : Type} {El : TC → Type}
    [DecidableEq K] [DecidableEq TC] [∀ t, DecidableEq (El t)]
    (m : IndexedMap K V TC El) (name : String) (t1 t2 : TC)
    (fn1 : K → V → List (El t1)) (fn2 : K → V → List (El t2))
    (hne : t1 ≠ t2) :
    ((m.add_index name t1 fn1).1.add_index name t2 fn2).1.get_index
        (m.add_index name t1 fn1).2
      = (m.add_index name t1 fn1).1.get_index (m.add_index name t1 fn1).2
    ∧ ((m.add_index name t1 fn1).1.add_index name t2 fn2).1.get_index
        (m.add_index name t1 fn1).2 ≠ none := by
  have h1 := IndexedMap.get_index_state_add_index_ne_type
    (m.add_index name t1 fn1).1 name t2 fn2 (m.add_index name t1 fn1).2
    rfl hne
  constructor
  · rw [IndexedMap.get_index, IndexedMap.get_index, h1]
  · rw [IndexedMap.get_index, h1,
      IndexedMap.get_index_state_add_index_self]
    simp

/-- C8 witness for the amended claim, at the counterexample's container. -/
theorem stale_token_amended_witness :
    c8r2.1.get_index c8r1.2 = c8r1.1.get_index c8r1.2 ∧
      c8r2.1.get_index c8r1.2 ≠ none :=
  stale_token_amended c8m1 "i" true false (fun _ v => [v])
    (fun _ _ => ["x"]) (by decide)

/-- C9: in every reachable container, every registered index's reverse map
has an entry for exactly the primary keys present in the primary store. -/
theorem reverse_keys_match_inner {K V TC : Type} {El : TC → Type}
    [DecidableEq K] [DecidableEq TC] [∀ t, DecidableEq (El t)]
    {m : IndexedMap K V TC El} (hm : Reachable m) :
    ∀ (t : TC) (index_id : IndexId TC t) st,
      m.get_index_state index_id = some st →
      ∀ k, (Table.lookup st.indexed k).isSome ↔
        (Table.lookup m.inner k).isSome :=
  reachable_indexed_iff_inner hm

/-- C9 witness at the running example. -/
theorem reverse_keys_match_inner_witness :
    ((Table.lookup exSt.indexed 1).isSome ↔
        (Table.lookup exM.inner 1).isSome) ∧
    ((Table.lookup exSt.indexed 3).isSome ↔
        (Table.lookup exM.inner 3).isSome) := by
  have hr : Reachable exM := by
    refine Reachable.insert _ 2 10 ?_
    refine Reachable.add_index _ "len" true _ ?_
    refine Reachable.insert _ 1 10 ?_
    exact Reachable.new
  exact ⟨reverse_keys_match_inner hr true exTok exSt rfl 1,
    reverse_keys_match_inner hr true exTok exSt rfl 3⟩

/-- C10: in every reachable container, every forward bucket of every
registered index is non-empty; consequently `keys_by_index` never returns
an empty set (it returns `none` instead). -/
theorem keys_by_index_nonempty {K V TC : Type} {El : TC → Type}
    [DecidableEq K] [DecidableEq TC] [∀ t, DecidableEq (El t)]
    {m : IndexedMap K V TC El} (hm : Reachable m) :
    (∀ (t : TC) (index_id : IndexId TC t) st,
        m.get_index_state index_id = some st →
        ∀ a b, Table.lookup st.index a = some b → b ≠ [])
    ∧ ∀ (t : TC) (index_id : IndexId TC t) (a : El t) b,
        m.keys_by_index index_id a = some b → b ≠ [] := by
  refine ⟨reachable_buckets_nonempty hm, ?_⟩
  intro t index_id a b hb
  rw [IndexedMap.keys_by_index] at hb
  cases hy : m.get_index_state index_id with
  | none =>
    rw [IndexedMap.get_index, hy] at hb
    exact Option.noConfusion hb
  | some st =>
    rw [IndexedMap.get_index, hy] at hb
    have hb' : Table.lookup st.index a = some b := hb
    exact reachable_buckets_nonempty hm t index_id st hy a b hb'

/-- C10 witness at the running example. -/
theorem keys_by_index_nonempty_witness :
    exM.keys_by_index exTok ((10 : Nat) : ElB true) = some [2, 1] ∧
      ([2, 1] : KeySet Nat) ≠ [] := by
  have hr : Reachable exM := by
    refine Reachable.insert _ 2 10 ?_
    refine Reachable.add_index _ "len" true _ ?_
    refine Reachable.insert _ 1 10 ?_
    exact Reachable.new
  exact ⟨rfl, (keys_by_index_nonempty hr).2 true exTok
    ((10 : Nat) : ElB true) [2, 1] rfl⟩
